import Mathlib

/-!
The gxjpath package: path compiler, lookup engine and compile cache.

A shallow embedding of `gxjpath.go` together with theorems about it.

Conventions of the embedding:

* a Go `string` is a list of bytes, a byte being a natural number
  (`'.'` is 46, `'@'` is 64, `'\\'` is 92);
* a Go `int` is an `Int`; the only arithmetic the program performs on one is
  `len(v) + idx` with `idx < 0`, which cannot overflow;
* a Go `(value, error)` result is a `Res`: `ok v` for a nil error, `err e` for one of
  the three package errors, `panic p` for a run-time panic, `outOfFuel` for a loop
  that was cut short by the fuel of the model;
* a Go `interface{}` value is a `Value`.
-/

namespace Gxjpath

/-! ## Data model -/

/-- A Go string: a sequence of bytes. -/
abbrev GoString := List Nat

/-- The separator byte `'.'`. -/
abbrev chDot : Nat := 46
/-- The escape byte `'\\'`. -/
abbrev chBackslash : Nat := 92
/-- The sigil byte `'@'`. -/
abbrev chAt : Nat := 64
/-- The byte `'-'`. -/
abbrev chMinus : Nat := 45
/-- The byte `'+'`. -/
abbrev chPlus : Nat := 43
/-- The byte `'0'`. -/
abbrev chZero : Nat := 48
/-- The byte `'9'`. -/
abbrev chNine : Nat := 57

/-- The string `"first"`. -/
abbrev strFirst : GoString := [102, 105, 114, 115, 116]
/-- The string `"last"`. -/
abbrev strLast : GoString := [108, 97, 115, 116]

/-- The three package-level error values `ErrNotFound`, `ErrWrongPath`, `ErrInvalidIndex`. -/
inductive GoError where
  | ErrNotFound
  | ErrWrongPath
  | ErrInvalidIndex
  deriving DecidableEq, Repr

/-- The run-time panics the program can raise: an index expression out of range, and
the explicit `panic("Unknown container type!")`. -/
inductive Panic where
  | indexOutOfRange
  | unknownContainerType
  deriving DecidableEq, Repr

/-- Outcome of a call: a value with a nil error, a package error, a panic, or a loop of
the model that ran out of fuel. -/
inductive Res (α : Type) where
  | ok (v : α)
  | err (e : GoError)
  | panic (p : Panic)
  | outOfFuel
  deriving DecidableEq, Repr

deriving instance DecidableEq for Except

/-- The type `GXJContainerType int8`. -/
abbrev GXJContainerType := Int

/-- The constant `GXJMapContainer` (`iota` = 0). -/
abbrev GXJMapContainer : GXJContainerType := 0
/-- The constant `GXJSliceContainer` (`iota` = 1). -/
abbrev GXJSliceContainer : GXJContainerType := 1

/-- The struct `GXJPathItem`. -/
structure GXJPathItem where
  key : GoString
  index : Int
  containerType : GXJContainerType
  deriving DecidableEq, Repr

/-- The type `GXJPath []GXJPathItem`. -/
abbrev GXJPath := List GXJPathItem

/-- A Go `interface{}` value as the program sees it: it is a `[]interface{}`, a
`map[string]interface{}`, or a value of any other dynamic type (`scalar`, told apart by
a tag). A Go map is an association list read with `List.lookup`. -/
inductive Value where
  | scalar (tag : Nat)
  | slice (v : List Value)
  | map (v : List (GoString × Value))

/-! ## The Go standard library function used by the program -/

/-- The digit loop of `strconv.Atoi`: `n = n*10 + (ch - '0')`, failing on a byte that is
not a decimal digit. -/
def parseDigits : List Nat → Nat → Option Nat
  | [], n => some n
  | ch :: rest, n =>
    if chZero ≤ ch ∧ ch ≤ chNine then parseDigits rest (n * 10 + (ch - chZero)) else none

/-- The digits of `strconv.Atoi` after the sign: at least one digit, and a value that
fits a 64-bit `int` of the given sign. -/
def atoiDigits (neg : Bool) (digits : GoString) : Option Int :=
  if digits.length = 0 then none
  else
    match parseDigits digits 0 with
    | none => none
    | some un =>
      if neg then (if un ≤ 2 ^ 63 then some (-(un : Int)) else none)
      else (if un < 2 ^ 63 then some (un : Int) else none)

/-- Modelled from the spec: `strconv.Atoi` belongs to the Go standard library and is
absent from `src/`. The spec (4.3) says "parse as a base-10 signed integer"; this
definition renders that following the documented behaviour of the library function for
a 64-bit `int`: an optional sign `'+'` or `'-'`, then one or more decimal digits, and a
value within `[-2^63, 2^63 - 1]`. `none` stands for a non-nil error (syntax or range). -/
def Atoi (s : GoString) : Option Int :=
  match s with
  | [] => none
  | c :: rest =>
    if c = chMinus then atoiDigits true rest
    else if c = chPlus then atoiDigits false rest
    else atoiDigits false s

/-! ## The path compiler -/

/-- The function `getIndex`. The index returned next to a non-nil error is dropped: the
only caller discards it. -/
def getIndex (path : GoString) : Except GoError Int :=
  if path.length = 0 then .error .ErrInvalidIndex
  else if path = strFirst then .ok 0
  else if path = strLast then .ok (-1)
  else
    match Atoi path with
    | none => .error .ErrInvalidIndex
    | some idx => .ok idx

/-- The loop of `cutSegment`: `todo` is `path[idx:]`, so its head is `path[idx]`. -/
def cutSegmentLoop (path : GoString) : GoString → Nat → Bool → GoString × GoString
  | [], _, _ => (path, [])
  | b :: todo, idx, normChar =>
    if normChar then
      let normChar := if b = chBackslash then false else normChar
      if b = chDot then
        let leftover := path.drop (idx + 1)
        let leftover := if leftover.length = 0 then [chDot] else leftover
        (path.take idx, leftover)
      else cutSegmentLoop path todo (idx + 1) normChar
    else cutSegmentLoop path todo (idx + 1) true

/-- The function `cutSegment`. -/
def cutSegment (path : GoString) : GoString × GoString :=
  cutSegmentLoop path path 0 true

/-- The loop of `unescape`, over the bytes still to read, with the flag `escChar` and
the buffer `buf`. -/
def unescapeLoop : GoString → Bool → GoString → GoString
  | [], _, buf => buf
  | b :: rest, escChar, buf =>
    if escChar then unescapeLoop rest false (buf ++ [b])
    else if b = chBackslash then unescapeLoop rest true buf
    else unescapeLoop rest false (buf ++ [b])

/-- The function `unescape`. -/
def unescape (segment : GoString) : GoString :=
  let buf := unescapeLoop segment false []
  if segment.length = buf.length then segment else buf

/-- The function `compileSegment`. -/
def compileSegment (segment : GoString) : Except GoError GXJPathItem :=
  match segment with
  | [] => .error .ErrWrongPath
  | c :: rest =>
    if c = chAt then
      match getIndex rest with
      | .error e => .error e
      | .ok idx => .ok { index := idx, key := unescape rest, containerType := GXJSliceContainer }
    else .ok { index := 0, key := unescape segment, containerType := GXJMapContainer }

/-- The loop of `CompilePath`, one iteration per unit of fuel. -/
def CompilePathLoop : Nat → GoString → GXJPath → Res GXJPath
  | fuel, path, output =>
    if path.length > 0 then
      match fuel with
      | 0 => .outOfFuel
      | fuel + 1 =>
        let cut := cutSegment path
        if cut.1.length = 0 then .err .ErrWrongPath
        else
          match compileSegment cut.1 with
          | .error e => .err e
          | .ok compiled => CompilePathLoop fuel cut.2 (output ++ [compiled])
    else .ok output

/-- The function `CompilePath`; the loop is given `len(path)` iterations. -/
def CompilePath (path : GoString) : Res GXJPath :=
  CompilePathLoop path.length path []

/-! ## The lookup engine -/

/-- The Go index expression `v[idx]`, which panics when `idx` is out of range. -/
def sliceIndex (v : List Value) (idx : Int) : Res Value :=
  match idx with
  | Int.ofNat k =>
    match v.get? k with
    | some x => .ok x
    | none => .panic .indexOutOfRange
  | Int.negSucc _ => .panic .indexOutOfRange

/-- The function `lookupSegment`. -/
def lookupSegment (pathItem : GXJPathItem) (data : Value) : Res Value :=
  if pathItem.containerType = GXJSliceContainer then
    match data with
    | .slice v =>
      let idx := pathItem.index
      let idx := if idx < 0 then (v.length : Int) + idx else idx
      if idx < 0 ∧ idx ≥ (v.length : Int) then .err .ErrNotFound
      else sliceIndex v idx
    | _ => .err .ErrNotFound
  else if pathItem.containerType = GXJMapContainer then
    match data with
    | .map v =>
      match v.lookup pathItem.key with
      | none => .err .ErrNotFound
      | some mapValue => .ok mapValue
    | _ => .err .ErrNotFound
  else .panic .unknownContainerType

/-- The function `LookupCompiledPath`. -/
def LookupCompiledPath : GXJPath → Value → Res Value
  | [], data => .ok data
  | x :: rest, data =>
    match lookupSegment x data with
    | .ok data => LookupCompiledPath rest data
    | .err e => .err e
    | .panic p => .panic p
    | .outOfFuel => .outOfFuel

/-- The function `LookupRawPath`. -/
def LookupRawPath (path : GoString) (data : Value) : Res Value :=
  match CompilePath path with
  | .ok cp => LookupCompiledPath cp data
  | .err e => .err e
  | .panic p => .panic p
  | .outOfFuel => .outOfFuel

/-! ## The compile cache -/

/-- The package variable `compiledCache map[string]GXJPath`. -/
abbrev Cache := GoString → Option GXJPath

/-- The initial value `make(map[string]GXJPath)`. -/
def emptyCache : Cache := fun _ => none

/-- The assignment `compiledCache[path] = c`. -/
def cacheStore (compiledCache : Cache) (path : GoString) (c : GXJPath) : Cache :=
  fun q => if q = path then some c else compiledCache q

/-- The function `CachedLookup`, run on its own (the mutex is not modelled): the
outcome and the cache afterwards. -/
def CachedLookup (compiledCache : Cache) (path : GoString) (data : Value) :
    Res Value × Cache :=
  match compiledCache path with
  | some compiled => (LookupCompiledPath compiled data, compiledCache)
  | none =>
    match CompilePath path with
    | .err e => (.err e, compiledCache)
    | .panic p => (.panic p, compiledCache)
    | .outOfFuel => (.outOfFuel, compiledCache)
    | .ok c => (LookupCompiledPath c data, cacheStore compiledCache path c)

/-- The cache states reachable from the empty cache by `CachedLookup` calls. -/
inductive Reachable : Cache → Prop where
  | empty : Reachable emptyCache
  | step (c : Cache) (path : GoString) (data : Value) :
      Reachable c → Reachable (CachedLookup c path data).2

/-! ## Reference definitions for the statements

These follow the words of the specification, not the code; the theorems compare the
code with them. -/

/-- The escape state after reading the byte `b` in the state `normChar`: a backslash
read as an ordinary byte escapes the next byte, and an escaped byte ends the escape. -/
def nextNorm (normChar : Bool) (b : Nat) : Bool :=
  if normChar then (if b = chBackslash then false else true) else true

/-- The escape state after a left-to-right scan of `s` started in the state `normChar`:
`true` when the next byte is read as an ordinary byte, `false` when it is escaped. -/
def normAfter : GoString → Bool → Bool
  | [], normChar => normChar
  | b :: rest, normChar => normAfter rest (nextNorm normChar b)

/-- Split `s` at its first unescaped separator, scanning from the state `normChar`: the
text before the separator and the text after it, or `none` when `s` has no unescaped
separator. -/
def cutAt : GoString → Bool → Option (GoString × GoString)
  | [], _ => none
  | b :: rest, normChar =>
    if normChar = true ∧ b = chDot then some ([], rest)
    else (cutAt rest (nextNorm normChar b)).map (fun st => (b :: st.1, st.2))

/-- The segments of `s`, scanning from the state `normChar`: the pieces between the
unescaped separators. -/
def specSegmentsFrom : GoString → Bool → List GoString
  | [], _ => [[]]
  | b :: rest, normChar =>
    if normChar = true ∧ b = chDot then [] :: specSegmentsFrom rest true
    else
      match specSegmentsFrom rest (nextNorm normChar b) with
      | [] => [[b]]
      | s :: ss => (b :: s) :: ss

/-- The segments of a path string by the grammar `path := segment ('.' segment)*`. -/
def specSegments (path : GoString) : List GoString :=
  specSegmentsFrom path true

/-- Compile the segments in order, the first error ending the run. -/
def compileSegments : List GoString → Res GXJPath
  | [] => .ok []
  | s :: ss =>
    match compileSegment s with
    | .error e => .err e
    | .ok c =>
      match compileSegments ss with
      | .ok cs => .ok (c :: cs)
      | r => r

/-- Put `output` in front of a compiled path. -/
def prependTo (output : GXJPath) : Res GXJPath → Res GXJPath
  | .ok cs => .ok (output ++ cs)
  | r => r

/-- The escaping of a literal key: a backslash before every `.`, `@` and backslash. -/
def esc : GoString → GoString
  | [] => []
  | b :: rest =>
    if b = chDot ∨ b = chAt ∨ b = chBackslash then chBackslash :: b :: esc rest
    else b :: esc rest

/-- The base-10 rendering of a natural number. -/
def decNat (n : Nat) : GoString :=
  if n = 0 then [chZero] else ((Nat.digits 10 n).reverse).map (fun d => d + chZero)

/-- The base-10 rendering of an integer, with a leading `-` when it is negative. -/
def dec (n : Int) : GoString :=
  if n < 0 then chMinus :: decNat n.natAbs else decNat n.natAbs

/-- The number a string of decimal digits denotes. -/
def decValue (ds : GoString) : Nat :=
  ds.foldl (fun n b => n * 10 + (b - chZero)) 0

/-- An integer literal that fits a 64-bit `int`: an optional sign `+` or `-`, then one
or more decimal digits, the value within `[-2^63, 2^63 - 1]`. -/
def IsIntLiteral (t : GoString) : Prop :=
  ∃ sgn ds : GoString, t = sgn ++ ds ∧ (sgn = [] ∨ sgn = [chPlus] ∨ sgn = [chMinus]) ∧
    ds ≠ [] ∧ (∀ b ∈ ds, chZero ≤ b ∧ b ≤ chNine) ∧
    (if sgn = [chMinus] then decValue ds ≤ 2 ^ 63 else decValue ds < 2 ^ 63)

/-- The number of backslashes at the end of `s`. -/
def trailingBackslashes (s : GoString) : Nat :=
  (s.reverse.takeWhile (fun b => decide (b = chBackslash))).length

/-- The byte of `s` at position `i` is an unescaped separator for a scan started in the
state `normChar`: it is a `.`, and the scan of the bytes before it ends in the ordinary
state (no active escape backslash right before it). -/
def IsUnescapedDotFrom (normChar : Bool) (s : GoString) (i : Nat) : Prop :=
  s.get? i = some chDot ∧ normAfter (s.take i) normChar = true

instance (normChar : Bool) (s : GoString) (i : Nat) :
    Decidable (IsUnescapedDotFrom normChar s i) := by
  unfold IsUnescapedDotFrom
  exact inferInstance

/-- The byte of the path `s` at position `i` is an unescaped separator. -/
def IsUnescapedDot (s : GoString) (i : Nat) : Prop :=
  IsUnescapedDotFrom true s i

instance (s : GoString) (i : Nat) : Decidable (IsUnescapedDot s i) := by
  unfold IsUnescapedDot
  exact inferInstance

/-! ## Lookup of one segment -/

theorem lookup_single (item : GXJPathItem) (d : Value) :
    LookupCompiledPath [item] d = lookupSegment item d := by
  simp only [LookupCompiledPath]
  cases lookupSegment item d <;> rfl

theorem sliceIndex_ofNat (v : List Value) (k : Nat) (x : Value) (h : v.get? k = some x) :
    sliceIndex v (k : Int) = .ok x := by
  show sliceIndex v (Int.ofNat k) = .ok x
  simp only [sliceIndex, h]

theorem sliceIndex_neg (v : List Value) (i : Int) (h : i < 0) :
    sliceIndex v i = .panic .indexOutOfRange := by
  cases i with
  | ofNat k => exact absurd h (by simp)
  | negSucc k => rfl

theorem sliceIndex_large (v : List Value) (i : Int) (h : (v.length : Int) ≤ i) :
    sliceIndex v i = .panic .indexOutOfRange := by
  cases i with
  | ofNat k =>
    have hk : v.length ≤ k := by
      have : ((v.length : Nat) : Int) ≤ ((k : Nat) : Int) := h
      exact_mod_cast this
    simp only [sliceIndex, List.get?_eq_none.mpr hk]
  | negSucc k => rfl

theorem lookup_of_nodup_keys (m : List (GoString × Value)) (k : GoString) (x : Value)
    (hmem : (k, x) ∈ m) (hnd : (m.map Prod.fst).Nodup) : m.lookup k = some x := by
  induction m with
  | nil => cases hmem
  | cons e m ih =>
    obtain ⟨k0, x0⟩ := e
    simp only [List.map_cons, List.nodup_cons] at hnd
    rcases List.mem_cons.mp hmem with h | h
    · have h1 : k = k0 := congrArg Prod.fst h
      have h2 : x = x0 := congrArg Prod.snd h
      subst h1; subst h2
      simp [List.lookup]
    · have hne : k ≠ k0 := by
        intro hk
        apply hnd.1
        rw [← hk]
        exact List.mem_map.mpr ⟨(k, x), h, rfl⟩
      have hb : (k == k0) = false := by simpa using hne
      simp only [List.lookup, hb]
      exact ih h hnd.2

theorem lookup_of_not_key (m : List (GoString × Value)) (k : GoString)
    (h : k ∉ m.map Prod.fst) : m.lookup k = none := by
  induction m with
  | nil => rfl
  | cons e m ih =>
    obtain ⟨k0, x0⟩ := e
    simp only [List.map_cons, List.mem_cons, not_or] at h
    have hb : (k == k0) = false := by simpa using h.1
    simp only [List.lookup, hb]
    exact ih h.2

theorem lookup_slice_out_of_range (key : GoString) (i : Int) (v : List Value)
    (h : (if 0 ≤ i then i else (v.length : Int) + i) < 0 ∨
      (v.length : Int) ≤ (if 0 ≤ i then i else (v.length : Int) + i)) :
    LookupCompiledPath [⟨key, i, GXJSliceContainer⟩] (.slice v) = .panic .indexOutOfRange := by
  rw [lookup_single]
  by_cases hi : 0 ≤ i
  · simp only [hi, if_true] at h
    have hn : ¬ (i < 0) := by omega
    have hv : ¬ (i < 0 ∧ i ≥ (v.length : Int)) := by omega
    simp only [lookupSegment, if_true, hn, if_false, hv]
    exact sliceIndex_large v i (by omega)
  · simp only [hi, if_false] at h
    have hn : i < 0 := by omega
    have hv : ¬ ((v.length : Int) + i < 0 ∧ (v.length : Int) + i ≥ (v.length : Int)) := by
      omega
    simp only [lookupSegment, if_true, hn, hv, if_false]
    rcases h with h | h
    · exact sliceIndex_neg v _ h
    · exact sliceIndex_large v _ h

/-- C1 (the code departs from the claim): `@-1` on an empty sequence, `@-1000` and `@3`
on a 3-element sequence all end in an index-out-of-range panic, where the claim asks
for ErrNotFound; the bounds test `idx < 0 && idx >= len(v)` can never hold. -/
theorem lookup_out_of_range_panics :
    LookupCompiledPath [⟨[45, 49], -1, GXJSliceContainer⟩] (.slice []) =
        .panic .indexOutOfRange ∧
      LookupCompiledPath [⟨[45, 49, 48, 48, 48], -1000, GXJSliceContainer⟩]
          (.slice [.scalar 0, .scalar 1, .scalar 2]) = .panic .indexOutOfRange ∧
      LookupCompiledPath [⟨[51], 3, GXJSliceContainer⟩]
          (.slice [.scalar 0, .scalar 1, .scalar 2]) = .panic .indexOutOfRange :=
  ⟨rfl, rfl, rfl⟩

/-- C4: on a sequence `v` of length `n`, a Slice segment with index `i`, `-n ≤ i < n`,
looks up successfully and returns `v[i]` when `i ≥ 0` and `v[n + i]` when `i < 0`. -/
theorem lookup_slice_in_range (key : GoString) (i : Int) (v : List Value)
    (hlo : -(v.length : Int) ≤ i) (hhi : i < (v.length : Int)) :
    ∃ x, v.get? (if 0 ≤ i then i else (v.length : Int) + i).toNat = some x ∧
      LookupCompiledPath [⟨key, i, GXJSliceContainer⟩] (.slice v) = .ok x := by
  rw [lookup_single]
  by_cases hi : 0 ≤ i
  · obtain ⟨k, rfl⟩ := Int.eq_ofNat_of_zero_le hi
    have hk : k < v.length := by exact_mod_cast hhi
    refine ⟨v.get ⟨k, hk⟩, ?_, ?_⟩
    · simp [List.get?_eq_get hk]
    · have hn : ¬ ((k : Int) < 0) := by omega
      simp only [lookupSegment, if_true, hn, if_false, false_and]
      exact sliceIndex_ofNat v k _ (List.get?_eq_get hk)
  · have hneg : i < 0 := by omega
    obtain ⟨k, hk⟩ := Int.eq_ofNat_of_zero_le (show 0 ≤ (v.length : Int) + i by omega)
    have hkl : k < v.length := by omega
    refine ⟨v.get ⟨k, hkl⟩, ?_, ?_⟩
    · simp [hi, hk, List.get?_eq_get hkl]
    · have hn : ¬ ((k : Int) < 0) := by omega
      simp only [lookupSegment, if_true, hneg, hk, hn, false_and, if_false]
      exact sliceIndex_ofNat v k _ (List.get?_eq_get hkl)

/-- Witness of C4: `@-1` on a 2-element sequence returns its element 1. -/
theorem lookup_slice_in_range_witness :
    ∃ x, [Value.scalar 7, Value.scalar 8].get?
        (if 0 ≤ (-1 : Int) then (-1 : Int)
          else (([Value.scalar 7, Value.scalar 8].length : Nat) : Int) + (-1 : Int)).toNat
        = some x ∧
      LookupCompiledPath [⟨[45, 49], -1, GXJSliceContainer⟩]
        (.slice [.scalar 7, .scalar 8]) = .ok x :=
  lookup_slice_in_range [45, 49] (-1) [.scalar 7, .scalar 8] (by decide) (by decide)

/-- C9: a Slice segment applied to a value that is not an ordered sequence, and a Map
segment applied to a value that is not a string-keyed mapping, fail with ErrNotFound
(and so do not panic). -/
theorem lookupSegment_type_mismatch (item : GXJPathItem) (d : Value) :
    (item.containerType = GXJSliceContainer → (∀ v, d ≠ .slice v) →
        lookupSegment item d = .err .ErrNotFound) ∧
      (item.containerType = GXJMapContainer → (∀ m, d ≠ .map m) →
        lookupSegment item d = .err .ErrNotFound) := by
  constructor
  · intro hc hd
    cases d with
    | slice v => exact absurd rfl (hd v)
    | scalar t => simp [lookupSegment, hc]
    | map m => simp [lookupSegment, hc]
  · intro hc hd
    cases d with
    | map m => exact absurd rfl (hd m)
    | scalar t => simp [lookupSegment, hc]
    | slice v => simp [lookupSegment, hc]

/-- Witness of C9: `@0` on a mapping and the key `k` on a sequence both give ErrNotFound. -/
theorem lookupSegment_type_mismatch_witness :
    lookupSegment ⟨[48], 0, GXJSliceContainer⟩ (.map [([107], .scalar 1)]) =
        .err .ErrNotFound ∧
      lookupSegment ⟨[107], 0, GXJMapContainer⟩ (.slice [.scalar 1]) = .err .ErrNotFound :=
  ⟨(lookupSegment_type_mismatch ⟨[48], 0, GXJSliceContainer⟩ (.map [([107], .scalar 1)])).1
      rfl (fun v h => by cases h),
    (lookupSegment_type_mismatch ⟨[107], 0, GXJMapContainer⟩ (.slice [.scalar 1])).2
      rfl (fun m h => by cases h)⟩

/-- C10: on a mapping `m` (keys pairwise distinct), a Map segment with key `k` returns
the value bound to `k` when `k` is a key of `m`, and fails with ErrNotFound when `k` is
not a key of `m`. -/
theorem lookup_map_key (k : GoString) (idx : Int) (m : List (GoString × Value)) :
    (∀ x, (k, x) ∈ m → (m.map Prod.fst).Nodup →
        LookupCompiledPath [⟨k, idx, GXJMapContainer⟩] (.map m) = .ok x) ∧
      (k ∉ m.map Prod.fst →
        LookupCompiledPath [⟨k, idx, GXJMapContainer⟩] (.map m) = .err .ErrNotFound) := by
  constructor
  · intro x hmem hnd
    rw [lookup_single]
    simp [lookupSegment, lookup_of_nodup_keys m k x hmem hnd]
  · intro h
    rw [lookup_single]
    simp [lookupSegment, lookup_of_not_key m k h]

/-- Witness of C10: in the mapping with keys `a` and `b`, key `b` is found and key `c`
is not. -/
theorem lookup_map_key_witness :
    LookupCompiledPath [⟨[98], 0, GXJMapContainer⟩]
        (.map [([97], .scalar 1), ([98], .scalar 2)]) = .ok (.scalar 2) ∧
      LookupCompiledPath [⟨[99], 0, GXJMapContainer⟩]
        (.map [([97], .scalar 1), ([98], .scalar 2)]) = .err .ErrNotFound :=
  ⟨(lookup_map_key [98] 0 [([97], .scalar 1), ([98], .scalar 2)]).1 (.scalar 2)
      (by simp) (by decide),
    (lookup_map_key [99] 0 [([97], .scalar 1), ([98], .scalar 2)]).2 (by decide)⟩

/-! ## The segment cutter -/

theorem cutSegmentLoop_eq (todo pre : GoString) (normChar : Bool) :
    cutSegmentLoop (pre ++ todo) todo pre.length normChar =
      match cutAt todo normChar with
      | none => (pre ++ todo, [])
      | some st => (pre ++ st.1, if st.2.length = 0 then [chDot] else st.2) := by
  induction todo generalizing pre normChar with
  | nil => simp [cutSegmentLoop, cutAt]
  | cons b todo ih =>
    have happ : pre ++ b :: todo = (pre ++ [b]) ++ todo := by simp
    have hlen : pre.length + 1 = (pre ++ [b]).length := by simp
    cases normChar with
    | true =>
      by_cases hb : b = chDot
      · subst hb
        simp [cutSegmentLoop, cutAt]
      · have hn : (if b = chBackslash then false else true) = nextNorm true b := by
          simp [nextNorm]
        simp only [cutSegmentLoop, cutAt, if_true, hb, if_false, and_false, hn]
        rw [happ, hlen, ih]
        cases h : cutAt todo (nextNorm true b) <;> simp [h]
    | false =>
      have hn : nextNorm false b = true := by simp [nextNorm]
      simp only [cutSegmentLoop, cutAt, Bool.false_eq_true, if_false, false_and, hn]
      rw [happ, hlen, ih]
      cases h : cutAt todo true <;> simp [h]

theorem cutSegment_eq (path : GoString) :
    cutSegment path =
      match cutAt path true with
      | none => (path, [])
      | some st => (st.1, if st.2.length = 0 then [chDot] else st.2) := by
  have h := cutSegmentLoop_eq path [] true
  simpa [cutSegment] using h

theorem cutAt_some (s : GoString) (n : Bool) (a b : GoString)
    (h : cutAt s n = some (a, b)) :
    s = a ++ chDot :: b ∧ cutAt a n = none ∧ normAfter a n = true := by
  induction s generalizing n a b with
  | nil => simp [cutAt] at h
  | cons c rest ih =>
    by_cases hd : n = true ∧ c = chDot
    · simp only [cutAt, hd, and_self, if_true, Option.some.injEq, Prod.mk.injEq] at h
      obtain ⟨h1, h2⟩ := h
      obtain ⟨hn, hc⟩ := hd
      subst h1; subst h2; subst hc; subst hn
      simp [cutAt, normAfter]
    · simp only [cutAt, hd, if_false, Option.map_eq_some'] at h
      obtain ⟨st, hst, heq⟩ := h
      obtain ⟨a0, b0⟩ := st
      simp only [Prod.mk.injEq] at heq
      obtain ⟨h1, h2⟩ := heq
      subst h1; subst h2
      obtain ⟨e1, e2, e3⟩ := ih _ _ _ hst
      refine ⟨by rw [e1]; simp, ?_, ?_⟩
      · simp only [cutAt, hd, if_false, e2, Option.map_none']
      · simpa only [normAfter] using e3

theorem cutAt_none_of_no_dot (s : GoString) (n : Bool) (h : ∀ b ∈ s, b ≠ chDot) :
    cutAt s n = none := by
  induction s generalizing n with
  | nil => rfl
  | cons c rest ih =>
    have hc : c ≠ chDot := h c (List.mem_cons_self _ _)
    have hr : ∀ b ∈ rest, b ≠ chDot := fun b hb => h b (List.mem_cons_of_mem _ hb)
    simp only [cutAt, hc, and_false, if_false, ih _ hr, Option.map_none']

/-! ## The segments of a path -/

theorem specSegmentsFrom_ne_nil (s : GoString) (n : Bool) : specSegmentsFrom s n ≠ [] := by
  cases s with
  | nil => simp [specSegmentsFrom]
  | cons c rest =>
    unfold specSegmentsFrom
    split
    · simp
    · split <;> simp

theorem specSegmentsFrom_of_cutAt_none (s : GoString) (n : Bool) (h : cutAt s n = none) :
    specSegmentsFrom s n = [s] := by
  induction s generalizing n with
  | nil => rfl
  | cons c rest ih =>
    by_cases hd : n = true ∧ c = chDot
    · simp [cutAt, hd] at h
    · simp only [cutAt, hd, if_false, Option.map_eq_none'] at h
      simp only [specSegmentsFrom, hd, if_false, ih _ h]

theorem specSegmentsFrom_of_cutAt_some (s : GoString) (n : Bool) (a b : GoString)
    (h : cutAt s n = some (a, b)) :
    specSegmentsFrom s n = a :: specSegmentsFrom b true := by
  induction s generalizing n a b with
  | nil => simp [cutAt] at h
  | cons c rest ih =>
    by_cases hd : n = true ∧ c = chDot
    · simp only [cutAt, hd, and_self, if_true, Option.some.injEq, Prod.mk.injEq] at h
      obtain ⟨h1, h2⟩ := h
      subst h1; subst h2
      simp only [specSegmentsFrom, hd, and_self, if_true]
    · simp only [cutAt, hd, if_false, Option.map_eq_some'] at h
      obtain ⟨st, hst, heq⟩ := h
      obtain ⟨a0, b0⟩ := st
      simp only [Prod.mk.injEq] at heq
      obtain ⟨h1, h2⟩ := heq
      subst h1; subst h2
      simp only [specSegmentsFrom, hd, if_false, ih _ _ _ hst]

theorem specSegmentsFrom_append (a b : GoString) (n : Bool) (h : normAfter a n = true) :
    specSegmentsFrom (a ++ chDot :: b) n = specSegmentsFrom a n ++ specSegmentsFrom b true := by
  induction a generalizing n with
  | nil =>
    simp only [normAfter] at h
    subst h
    simp [specSegmentsFrom]
  | cons c a ih =>
    simp only [normAfter] at h
    have hih := ih _ h
    by_cases hd : n = true ∧ c = chDot
    · obtain ⟨hn, hc⟩ := hd
      subst hn; subst hc
      have hnn : nextNorm true chDot = true := by decide
      rw [hnn] at hih
      simp [specSegmentsFrom, hih]
    · have hcons : (c :: a) ++ chDot :: b = c :: (a ++ chDot :: b) := rfl
      rw [hcons]
      simp only [specSegmentsFrom, hd, if_false]
      rw [hih]
      cases hs : specSegmentsFrom a (nextNorm n c) with
      | nil => exact absurd hs (specSegmentsFrom_ne_nil _ _)
      | cons s0 ss => simp

/-! ## The path compiler as a map over the segments -/

theorem CompilePathLoop_nil (fuel : Nat) (out : GXJPath) :
    CompilePathLoop fuel [] out = .ok out := by
  unfold CompilePathLoop
  simp

theorem CompilePathLoop_succ (fuel : Nat) (path : GoString) (out : GXJPath)
    (h : path ≠ []) :
    CompilePathLoop (fuel + 1) path out =
      if (cutSegment path).1.length = 0 then .err .ErrWrongPath
      else
        match compileSegment (cutSegment path).1 with
        | .error e => .err e
        | .ok compiled => CompilePathLoop fuel (cutSegment path).2 (out ++ [compiled]) := by
  have hpos : path.length > 0 := List.length_pos.mpr h
  rw [CompilePathLoop]
  simp only [hpos, if_true]

theorem CompilePathLoop_dot (fuel : Nat) (out : GXJPath) :
    CompilePathLoop (fuel + 1) [chDot] out = .err .ErrWrongPath := by
  rw [CompilePathLoop_succ _ _ _ (by simp)]
  rfl

theorem length_ne_zero_of_ne_nil {α : Type} (l : List α) (h : l ≠ []) : ¬ l.length = 0 := by
  intro h0
  exact h (List.length_eq_zero.mp h0)

theorem CompilePathLoop_eq (fuel : Nat) :
    ∀ (path : GoString) (out : GXJPath), path ≠ [] → path.length ≤ fuel →
      CompilePathLoop fuel path out = prependTo out (compileSegments (specSegments path)) := by
  induction fuel with
  | zero =>
    intro path out hne hlen
    exact absurd (List.length_eq_zero.mp (Nat.le_zero.mp hlen)) hne
  | succ fuel ih =>
    intro path out hne hlen
    rw [CompilePathLoop_succ _ _ _ hne, cutSegment_eq]
    cases hcut : cutAt path true with
    | none =>
      have hseg := specSegmentsFrom_of_cutAt_none path true hcut
      rw [specSegments, hseg]
      simp only [length_ne_zero_of_ne_nil path hne, if_false, compileSegments]
      cases compileSegment path with
      | error e => rfl
      | ok c => simp [CompilePathLoop_nil, prependTo]
    | some st =>
      obtain ⟨a, b⟩ := st
      obtain ⟨e1, _, _⟩ := cutAt_some _ _ _ _ hcut
      have hseg := specSegmentsFrom_of_cutAt_some path true a b hcut
      rw [specSegments, hseg]
      simp only [compileSegments]
      by_cases ha : a = []
      · subst ha
        simp [compileSegment, prependTo]
      · simp only [length_ne_zero_of_ne_nil a ha, if_false]
        cases hcs : compileSegment a with
        | error e => simp [prependTo]
        | ok c =>
          simp only []
          by_cases hb : b = []
          · subst hb
            have hal : 0 < a.length := List.length_pos.mpr ha
            have hfuel : 1 ≤ fuel := by
              rw [e1] at hlen
              simp only [List.length_append, List.length_cons, List.length_nil] at hlen
              omega
            obtain ⟨f, rfl⟩ : ∃ f, fuel = f + 1 := ⟨fuel - 1, by omega⟩
            simp only [List.length_nil, if_true, CompilePathLoop_dot]
            simp [specSegmentsFrom, compileSegments, compileSegment, prependTo]
          · simp only [length_ne_zero_of_ne_nil b hb, if_false]
            have hbl : b.length ≤ fuel := by
              rw [e1] at hlen
              simp only [List.length_append, List.length_cons] at hlen
              omega
            rw [ih b _ hb hbl]
            change _ = prependTo out (match compileSegments (specSegments b) with
              | .ok cs => .ok (c :: cs)
              | r => r)
            cases compileSegments (specSegments b) <;> simp [prependTo]

theorem CompilePath_eq (path : GoString) (h : path ≠ []) :
    CompilePath path = compileSegments (specSegments path) := by
  rw [CompilePath, CompilePathLoop_eq _ path [] h (Nat.le_refl _)]
  cases compileSegments (specSegments path) <;> simp [prependTo]

theorem CompilePath_nil : CompilePath [] = .ok [] := by
  rw [CompilePath, CompilePathLoop_nil]

theorem CompilePath_single (path : GoString) (hne : path ≠ [])
    (hdot : cutAt path true = none) :
    CompilePath path =
      match compileSegment path with
      | .error e => .err e
      | .ok c => .ok [c] := by
  rw [CompilePath_eq path hne, specSegments, specSegmentsFrom_of_cutAt_none path true hdot]
  simp only [compileSegments]

theorem getIndex_error (t : GoString) (e : GoError) (h : getIndex t = .error e) :
    e = .ErrInvalidIndex := by
  unfold getIndex at h
  split at h
  · cases h; rfl
  · split at h
    · cases h
    · split at h
      · cases h
      · split at h
        · cases h; rfl
        · cases h

theorem compileSegment_error (s : GoString) (e : GoError)
    (h : compileSegment s = .error e) : e = .ErrWrongPath ∨ e = .ErrInvalidIndex := by
  cases s with
  | nil =>
    simp only [compileSegment] at h
    cases h
    exact Or.inl rfl
  | cons c rest =>
    simp only [compileSegment] at h
    split at h
    · cases hg : getIndex rest with
      | error e0 =>
        rw [hg] at h
        simp only [Except.error.injEq] at h
        subst h
        exact Or.inr (getIndex_error rest _ hg)
      | ok i =>
        rw [hg] at h
        cases h
    · cases h

theorem compileSegment_nil : compileSegment [] = .error .ErrWrongPath := rfl

theorem compileSegments_of_mem_nil (segs : List GoString) (h : [] ∈ segs) :
    compileSegments segs = .err .ErrWrongPath ∨
      compileSegments segs = .err .ErrInvalidIndex := by
  induction segs with
  | nil => cases h
  | cons s ss ih =>
    simp only [compileSegments]
    cases hs : compileSegment s with
    | error e =>
      rcases compileSegment_error s e hs with h1 | h1 <;> simp [h1]
    | ok c =>
      have hne : s ≠ [] := by
        intro h0
        rw [h0, compileSegment_nil] at hs
        cases hs
      have hmem : [] ∈ ss := by
        rcases List.mem_cons.mp h with h1 | h1
        · exact absurd h1.symm hne
        · exact h1
      rcases ih hmem with h1 | h1 <;> simp [h1]

theorem compileSegments_wrongPath (segs : List GoString) (h : [] ∈ segs)
    (hidx : ∀ s ∈ segs, compileSegment s ≠ .error .ErrInvalidIndex) :
    compileSegments segs = .err .ErrWrongPath := by
  induction segs with
  | nil => cases h
  | cons s ss ih =>
    simp only [compileSegments]
    cases hs : compileSegment s with
    | error e =>
      rcases compileSegment_error s e hs with h1 | h1
      · simp [h1]
      · rw [h1] at hs
        exact absurd hs (hidx s (List.mem_cons_self _ _))
    | ok c =>
      have hne : s ≠ [] := by
        intro h0
        rw [h0, compileSegment_nil] at hs
        cases hs
      have hmem : [] ∈ ss := by
        rcases List.mem_cons.mp h with h1 | h1
        · exact absurd h1.symm hne
        · exact h1
      have h1 := ih hmem (fun s0 hs0 => hidx s0 (List.mem_cons_of_mem _ hs0))
      simp [h1]

theorem specSegments_mem_nil (a b : GoString) (hesc : normAfter a true = true)
    (hempty : a = [] ∨ b = [] ∨ b.head? = some chDot) :
    [] ∈ specSegments (a ++ chDot :: b) := by
  rw [specSegments, specSegmentsFrom_append a b true hesc]
  rcases hempty with h | h | h
  · subst h
    simp [specSegmentsFrom]
  · subst h
    simp [specSegmentsFrom]
  · cases b with
    | nil => simp [specSegmentsFrom]
    | cons c b0 =>
      simp only [List.head?_cons, Option.some.injEq] at h
      subst h
      simp [specSegmentsFrom]

/-! ## Claims about the path compiler -/

/-- C2 (counterexample): the empty path string compiles, without error, to the empty
compiled path. -/
theorem CompilePath_empty_string_ok :
    CompilePath [] = .ok [] ∧ CompilePath [] ≠ .err .ErrWrongPath :=
  ⟨by decide, by decide⟩

/-- C2 (amended): for every non-empty path string, a successful CompilePath returns at
least one segment; the empty path string compiles to the empty compiled path. -/
theorem CompilePath_nonempty (path : GoString) (c : GXJPath) :
    (path ≠ [] → CompilePath path = .ok c → 1 ≤ c.length) ∧ CompilePath [] = .ok [] := by
  refine ⟨?_, CompilePath_nil⟩
  intro hne h
  rw [CompilePath_eq path hne, specSegments] at h
  cases hs : specSegmentsFrom path true with
  | nil => exact absurd hs (specSegmentsFrom_ne_nil _ _)
  | cons s ss =>
    rw [hs] at h
    simp only [compileSegments] at h
    cases hc : compileSegment s with
    | error e => rw [hc] at h; cases h
    | ok c0 =>
      rw [hc] at h
      cases hss : compileSegments ss with
      | ok cs =>
        rw [hss] at h
        simp only [Res.ok.injEq] at h
        subst h
        simp
      | err e => rw [hss] at h; cases h
      | panic q => rw [hss] at h; cases h
      | outOfFuel => rw [hss] at h; cases h

/-- Witness of C2 (amended): the path `k` compiles to one segment. -/
theorem CompilePath_nonempty_witness :
    1 ≤ ([⟨[107], 0, GXJMapContainer⟩] : GXJPath).length :=
  (CompilePath_nonempty [107] [⟨[107], 0, GXJMapContainer⟩]).1 (by decide) (by decide)

/-- C3 (counterexample): the path `@x.` ends with an unescaped separator, yet
CompilePath fails with ErrInvalidIndex, not ErrWrongPath: the first segment fails first. -/
theorem CompilePath_empty_segment_invalid_index :
    normAfter [64, 120] true = true ∧
      CompilePath ([64, 120] ++ chDot :: []) = .err .ErrInvalidIndex :=
  ⟨by decide, by decide⟩

theorem compileSegment_error_shape (s : GoString) (e : GoError)
    (h : compileSegment s = .error e) :
    (s = [] ∧ e = .ErrWrongPath) ∨ (s.head? = some chAt ∧ e = .ErrInvalidIndex) := by
  cases s with
  | nil =>
    rw [compileSegment_nil] at h
    cases h
    exact Or.inl ⟨rfl, rfl⟩
  | cons c rest =>
    by_cases hc : c = chAt
    · subst hc
      rcases compileSegment_error _ e h with h1 | h1
      · simp only [compileSegment, if_true] at h
        cases hg : getIndex rest with
        | error e0 =>
          rw [hg] at h
          simp only [Except.error.injEq] at h
          rw [← h, getIndex_error rest e0 hg] at h1
          cases h1
        | ok i =>
          rw [hg] at h
          cases h
      · exact Or.inr ⟨rfl, h1⟩
    · simp only [compileSegment, hc, if_false] at h
      cases h

theorem compileSegments_first_error (pre : List GoString) (s : GoString)
    (post : List GoString) (e : GoError)
    (hpre : ∀ t ∈ pre, ∃ c, compileSegment t = .ok c)
    (hs : compileSegment s = .error e) :
    compileSegments (pre ++ s :: post) = .err e := by
  induction pre with
  | nil => simp only [List.nil_append, compileSegments, hs]
  | cons t pre ih =>
    obtain ⟨c, hc⟩ := hpre t (List.mem_cons_self _ _)
    have hrest := ih (fun u hu => hpre u (List.mem_cons_of_mem _ hu))
    show compileSegments (t :: (pre ++ s :: post)) = _
    simp only [compileSegments, hc, hrest]

theorem exists_first_failing (segs : List GoString) (h : [] ∈ segs) :
    ∃ pre s post e, segs = pre ++ s :: post ∧
      (∀ t ∈ pre, ∃ c, compileSegment t = .ok c) ∧ compileSegment s = .error e := by
  induction segs with
  | nil => cases h
  | cons s0 ss ih =>
    cases hs : compileSegment s0 with
    | error e =>
      exact ⟨[], s0, ss, e, rfl, fun t ht => absurd ht (List.not_mem_nil t), hs⟩
    | ok c =>
      have hne : s0 ≠ [] := by
        intro h0
        rw [h0, compileSegment_nil] at hs
        cases hs
      have hmem : [] ∈ ss := by
        rcases List.mem_cons.mp h with h1 | h1
        · exact absurd h1.symm hne
        · exact h1
      obtain ⟨pre, s, post, e, hsplit, hpre, hfail⟩ := ih hmem
      refine ⟨s0 :: pre, s, post, e, by rw [hsplit]; rfl, ?_, hfail⟩
      intro t ht
      rcases List.mem_cons.mp ht with h1 | h1
      · rw [h1]
        exact ⟨c, hs⟩
      · exact hpre t h1

/-- C3 (amended): a path string with an empty segment (an unescaped separator at its
start, at its end, or right before another separator) fails to compile, and the error
is that of the first segment, in order, that fails to compile: some segment fails while
all segments before it compile, CompilePath returns the error of that segment, and the
error is ErrWrongPath when that segment is empty and ErrInvalidIndex when it starts
with `@`. Whichever segment fails first while those before it compile decides the
error; so the error is ErrWrongPath or ErrInvalidIndex, and it is ErrWrongPath when no
segment of the path fails with ErrInvalidIndex. -/
theorem CompilePath_empty_segment (a b : GoString) (hesc : normAfter a true = true)
    (hempty : a = [] ∨ b = [] ∨ b.head? = some chDot) :
    (∃ pre s post e,
        specSegments (a ++ chDot :: b) = pre ++ s :: post ∧
          (∀ t ∈ pre, ∃ c, compileSegment t = .ok c) ∧
          compileSegment s = .error e ∧
          CompilePath (a ++ chDot :: b) = .err e ∧
          ((s = [] ∧ e = .ErrWrongPath) ∨
            (s.head? = some chAt ∧ e = .ErrInvalidIndex))) ∧
      (∀ pre s post e,
        specSegments (a ++ chDot :: b) = pre ++ s :: post →
          (∀ t ∈ pre, ∃ c, compileSegment t = .ok c) →
          compileSegment s = .error e →
          CompilePath (a ++ chDot :: b) = .err e) ∧
      (CompilePath (a ++ chDot :: b) = .err .ErrWrongPath ∨
        CompilePath (a ++ chDot :: b) = .err .ErrInvalidIndex) ∧
      ((∀ s ∈ specSegments (a ++ chDot :: b), compileSegment s ≠ .error .ErrInvalidIndex) →
        CompilePath (a ++ chDot :: b) = .err .ErrWrongPath) := by
  have hne : a ++ chDot :: b ≠ [] := by simp
  have hmem := specSegments_mem_nil a b hesc hempty
  have hall : ∀ pre s post e,
      specSegments (a ++ chDot :: b) = pre ++ s :: post →
        (∀ t ∈ pre, ∃ c, compileSegment t = .ok c) →
        compileSegment s = .error e →
        CompilePath (a ++ chDot :: b) = .err e := by
    intro pre s post e hsplit hpre hs
    rw [CompilePath_eq _ hne, hsplit]
    exact compileSegments_first_error pre s post e hpre hs
  refine ⟨?_, hall, ?_, ?_⟩
  · obtain ⟨pre, s, post, e, hsplit, hpre, hs⟩ := exists_first_failing _ hmem
    exact ⟨pre, s, post, e, hsplit, hpre, hs, hall pre s post e hsplit hpre hs,
      compileSegment_error_shape s e hs⟩
  · rw [CompilePath_eq _ hne]
    exact compileSegments_of_mem_nil _ hmem
  · rw [CompilePath_eq _ hne]
    exact compileSegments_wrongPath _ hmem

/-- Witness of C3 (amended): the path `k1.` fails with ErrWrongPath; and in `a..@x` the
first failing segment is the empty one, after `a`, so the error is ErrWrongPath although
the later segment `@x` has an invalid index. -/
theorem CompilePath_empty_segment_witness :
    CompilePath ([107, 49] ++ chDot :: []) = .err .ErrWrongPath ∧
      CompilePath ([97] ++ chDot :: [46, 64, 120]) = .err .ErrWrongPath :=
  ⟨(CompilePath_empty_segment [107, 49] [] (by decide) (Or.inr (Or.inl rfl))).2.2.2
      (by decide),
    (CompilePath_empty_segment [97] [46, 64, 120] (by decide)
        (Or.inr (Or.inr rfl))).2.1 [[97]] [] [[64, 120]] .ErrWrongPath (by decide)
      (fun t ht => by
        rw [List.mem_singleton.mp ht]
        exact ⟨_, rfl⟩)
      rfl⟩

/-! ## Escaping -/

theorem cutAt_esc (k : GoString) : cutAt (esc k) true = none := by
  induction k with
  | nil => rfl
  | cons b rest ih =>
    by_cases hb : b = chDot ∨ b = chAt ∨ b = chBackslash
    · have h1 : nextNorm true chBackslash = false := by decide
      have h2 : nextNorm false b = true := by simp [nextNorm]
      have h3 : ¬ (True ∧ chBackslash = chDot) := by decide
      simp only [esc, hb, if_true, cutAt, h1, h2, h3, if_false, Bool.false_eq_true,
        false_and, ih, Option.map_none']
    · simp only [not_or] at hb
      have h1 : nextNorm true b = true := by simp [nextNorm, hb.2.2]
      simp only [esc, hb.1, hb.2.1, hb.2.2, or_self, if_false, cutAt, and_false, h1, ih,
        Option.map_none']

theorem unescapeLoop_esc (k buf : GoString) : unescapeLoop (esc k) false buf = buf ++ k := by
  induction k generalizing buf with
  | nil => simp [esc, unescapeLoop]
  | cons b rest ih =>
    by_cases hb : b = chDot ∨ b = chAt ∨ b = chBackslash
    · simp only [esc, hb, if_true, unescapeLoop, Bool.false_eq_true, if_false, ih]
      simp
    · simp only [not_or] at hb
      simp only [esc, hb.1, hb.2.1, hb.2.2, or_self, if_false, unescapeLoop,
        Bool.false_eq_true, ih]
      simp

theorem esc_length_le (k : GoString) : k.length ≤ (esc k).length := by
  induction k with
  | nil => simp [esc]
  | cons b rest ih =>
    by_cases hb : b = chDot ∨ b = chAt ∨ b = chBackslash
    · simp only [esc, hb, if_true, List.length_cons]
      omega
    · simp only [esc, hb, if_false, List.length_cons]
      omega

theorem esc_eq_of_length_eq (k : GoString) (h : (esc k).length = k.length) : esc k = k := by
  induction k with
  | nil => rfl
  | cons b rest ih =>
    have hle := esc_length_le rest
    by_cases hb : b = chDot ∨ b = chAt ∨ b = chBackslash
    · simp only [esc, hb, if_true, List.length_cons] at h
      omega
    · simp only [esc, hb, if_false, List.length_cons] at h
      simp only [esc, hb, if_false]
      rw [ih (by omega)]

theorem unescape_esc (k : GoString) : unescape (esc k) = k := by
  unfold unescape
  simp only [unescapeLoop_esc, List.nil_append]
  split
  · next h => exact esc_eq_of_length_eq k h
  · rfl

theorem compileSegment_esc (k : GoString) (hne : k ≠ []) :
    compileSegment (esc k) = .ok ⟨k, 0, GXJMapContainer⟩ := by
  have hu := unescape_esc k
  cases k with
  | nil => exact absurd rfl hne
  | cons b rest =>
    by_cases hb : b = chDot ∨ b = chAt ∨ b = chBackslash
    · have he : esc (b :: rest) = chBackslash :: b :: esc rest := by simp only [esc, hb, if_true]
      rw [he] at hu ⊢
      have h0 : ¬ (chBackslash = chAt) := by decide
      simp only [compileSegment, h0, if_false, hu]
    · have he : esc (b :: rest) = b :: esc rest := by simp only [esc, hb, if_false]
      simp only [not_or] at hb
      rw [he] at hu ⊢
      simp only [compileSegment, hb.2.1, if_false, hu]

theorem esc_ne_nil (k : GoString) (hne : k ≠ []) : esc k ≠ [] := by
  intro h
  have hle := esc_length_le k
  rw [h] at hle
  exact hne (List.length_eq_zero.mp (Nat.le_zero.mp hle))

/-- C5: for every non-empty key `k`, the escaping of `k` compiles to exactly one
segment, of Map kind, with key `k` and index 0. -/
theorem CompilePath_esc (k : GoString) (hne : k ≠ []) :
    CompilePath (esc k) = .ok [⟨k, 0, GXJMapContainer⟩] := by
  rw [CompilePath_single (esc k) (esc_ne_nil k hne) (cutAt_esc k), compileSegment_esc k hne]

/-- Witness of C5: the key `@k.\` is escaped to `\@k\.\\` and compiled back. -/
theorem CompilePath_esc_witness :
    CompilePath (esc [64, 107, 46, 92]) = .ok [⟨[64, 107, 46, 92], 0, GXJMapContainer⟩] :=
  CompilePath_esc [64, 107, 46, 92] (by decide)

/-! ## Index segments -/

theorem parseDigits_of_digits (ds : GoString) (n : Nat)
    (h : ∀ b ∈ ds, chZero ≤ b ∧ b ≤ chNine) :
    parseDigits ds n = some (ds.foldl (fun n b => n * 10 + (b - chZero)) n) := by
  induction ds generalizing n with
  | nil => rfl
  | cons c rest ih =>
    have hc := h c (List.mem_cons_self _ _)
    simp only [parseDigits, hc, and_self, if_true, List.foldl_cons]
    exact ih _ (fun b hb => h b (List.mem_cons_of_mem _ hb))

theorem parseDigits_some_digits (ds : GoString) (n v : Nat) (h : parseDigits ds n = some v) :
    ∀ b ∈ ds, chZero ≤ b ∧ b ≤ chNine := by
  induction ds generalizing n with
  | nil => intro b hb; cases hb
  | cons c rest ih =>
    simp only [parseDigits] at h
    split at h
    · next hc =>
      intro b hb
      rcases List.mem_cons.mp hb with h1 | h1
      · rw [h1]; exact hc
      · exact ih _ h b h1
    · cases h

theorem parseDigits_eq_decValue (ds : GoString) (h : ∀ b ∈ ds, chZero ≤ b ∧ b ≤ chNine) :
    parseDigits ds 0 = some (decValue ds) :=
  parseDigits_of_digits ds 0 h

theorem atoiDigits_of_digits (neg : Bool) (ds : GoString) (hne : ds ≠ [])
    (hd : ∀ b ∈ ds, chZero ≤ b ∧ b ≤ chNine) :
    atoiDigits neg ds =
      if neg = true then (if decValue ds ≤ 2 ^ 63 then some (-(decValue ds : Int)) else none)
      else (if decValue ds < 2 ^ 63 then some (decValue ds : Int) else none) := by
  simp only [atoiDigits, length_ne_zero_of_ne_nil ds hne, if_false,
    parseDigits_eq_decValue ds hd]

theorem atoiDigits_some (neg : Bool) (ds : GoString) (v : Int)
    (h : atoiDigits neg ds = some v) :
    ds ≠ [] ∧ (∀ b ∈ ds, chZero ≤ b ∧ b ≤ chNine) ∧
      (if neg = true then decValue ds ≤ 2 ^ 63 else decValue ds < 2 ^ 63) := by
  have hne : ds ≠ [] := by
    intro h0
    rw [h0] at h
    simp [atoiDigits] at h
  have hd : ∀ b ∈ ds, chZero ≤ b ∧ b ≤ chNine := by
    cases hp : parseDigits ds 0 with
    | none => simp [atoiDigits, hp] at h
    | some un => exact parseDigits_some_digits ds 0 un hp
  refine ⟨hne, hd, ?_⟩
  rw [atoiDigits_of_digits neg ds hne hd] at h
  cases neg with
  | true =>
    simp only [if_true] at h ⊢
    by_contra hcon
    simp only [hcon, if_false] at h
    cases h
  | false =>
    simp only [Bool.false_eq_true, if_false] at h ⊢
    by_contra hcon
    simp only [hcon, if_false] at h
    cases h

theorem Atoi_sign_digits (sgn ds : GoString)
    (hs : sgn = [] ∨ sgn = [chPlus] ∨ sgn = [chMinus]) (hne : ds ≠ [])
    (hd : ∀ b ∈ ds, chZero ≤ b ∧ b ≤ chNine) :
    Atoi (sgn ++ ds) =
      if sgn = [chMinus] then (if decValue ds ≤ 2 ^ 63 then some (-(decValue ds : Int)) else none)
      else (if decValue ds < 2 ^ 63 then some (decValue ds : Int) else none) := by
  rcases hs with h | h | h
  · subst h
    cases ds with
    | nil => exact absurd rfl hne
    | cons c rest =>
      have hc := hd c (List.mem_cons_self _ _)
      have h1 : ¬ c = chMinus := by
        simp only [chZero, chNine, chMinus] at hc ⊢
        omega
      have h2 : ¬ c = chPlus := by
        simp only [chZero, chNine, chPlus] at hc ⊢
        omega
      have h3 : ¬ (([] : GoString) = [chMinus]) := by simp
      simp only [List.nil_append, Atoi, h1, h2, if_false, h3,
        atoiDigits_of_digits false (c :: rest) hne hd, Bool.false_eq_true]
  · subst h
    have h1 : ¬ (chPlus = chMinus) := by decide
    have h3 : ¬ ([chPlus] = [chMinus]) := by decide
    simp only [List.singleton_append, Atoi, h1, if_false, if_true, h3,
      atoiDigits_of_digits false ds hne hd, Bool.false_eq_true]
  · subst h
    simp only [List.singleton_append, Atoi, if_true, atoiDigits_of_digits true ds hne hd]

theorem Atoi_some_literal (t : GoString) (v : Int) (h : Atoi t = some v) : IsIntLiteral t := by
  cases t with
  | nil => simp [Atoi] at h
  | cons c rest =>
    simp only [Atoi] at h
    by_cases h1 : c = chMinus
    · simp only [h1, if_true] at h
      obtain ⟨hne, hd, hr⟩ := atoiDigits_some _ _ _ h
      subst h1
      refine ⟨[chMinus], rest, rfl, Or.inr (Or.inr rfl), hne, hd, ?_⟩
      simpa using hr
    · simp only [h1, if_false] at h
      by_cases h2 : c = chPlus
      · simp only [h2, if_true] at h
        obtain ⟨hne, hd, hr⟩ := atoiDigits_some _ _ _ h
        subst h2
        have h3 : ¬ ([chPlus] = [chMinus]) := by decide
        refine ⟨[chPlus], rest, rfl, Or.inr (Or.inl rfl), hne, hd, ?_⟩
        simpa [h3] using hr
      · simp only [h2, if_false] at h
        obtain ⟨hne, hd, hr⟩ := atoiDigits_some _ _ _ h
        refine ⟨[], c :: rest, rfl, Or.inl rfl, hne, hd, ?_⟩
        simpa using hr

theorem Atoi_of_literal (t : GoString) (h : IsIntLiteral t) : ∃ v, Atoi t = some v := by
  obtain ⟨sgn, ds, rfl, hs, hne, hd, hr⟩ := h
  rw [Atoi_sign_digits sgn ds hs hne hd]
  by_cases hm : sgn = [chMinus]
  · simp only [hm, if_true] at hr ⊢
    exact ⟨-(decValue ds : Int), by simp only [hr, if_true]⟩
  · simp only [hm, if_false] at hr ⊢
    exact ⟨(decValue ds : Int), by simp only [hr, if_true]⟩

theorem IsIntLiteral_ne_nil (t : GoString) (h : IsIntLiteral t) : t ≠ [] := by
  obtain ⟨sgn, ds, rfl, _, hne, _, _⟩ := h
  simp [hne]

theorem getIndex_ok_iff (t : GoString) :
    (∃ i, getIndex t = .ok i) ↔ (t = strFirst ∨ t = strLast ∨ IsIntLiteral t) := by
  unfold getIndex
  by_cases h0 : t.length = 0
  · have ht : t = [] := List.length_eq_zero.mp h0
    subst ht
    constructor
    · rintro ⟨i, hi⟩
      simp at hi
    · rintro (h | h | h)
      · cases h
      · cases h
      · exact absurd rfl (IsIntLiteral_ne_nil _ h)
  · simp only [h0, if_false]
    by_cases h1 : t = strFirst
    · simp only [h1, if_true, true_or, iff_true]
      exact ⟨0, rfl⟩
    · simp only [h1, if_false, false_or]
      by_cases h2 : t = strLast
      · simp only [h2, if_true, true_or, iff_true]
        exact ⟨-1, rfl⟩
      · simp only [h2, if_false, false_or]
        cases ha : Atoi t with
        | none =>
          constructor
          · rintro ⟨i, hi⟩
            cases hi
          · intro hl
            obtain ⟨v, hv⟩ := Atoi_of_literal t hl
            rw [ha] at hv
            cases hv
        | some v =>
          constructor
          · intro _
            exact Atoi_some_literal t v ha
          · intro _
            exact ⟨v, rfl⟩

theorem getIndex_err (t : GoString)
    (h : ¬ (t = strFirst ∨ t = strLast ∨ IsIntLiteral t)) :
    getIndex t = .error .ErrInvalidIndex := by
  cases hg : getIndex t with
  | error e => rw [getIndex_error t e hg]
  | ok i => exact absurd ((getIndex_ok_iff t).mp ⟨i, hg⟩) h

theorem compileSegment_at (t : GoString) :
    compileSegment (chAt :: t) =
      match getIndex t with
      | .error e => .error e
      | .ok idx => .ok ⟨unescape t, idx, GXJSliceContainer⟩ := by
  simp only [compileSegment, if_true]

theorem CompilePath_at (t : GoString) (hdot : ∀ b ∈ t, b ≠ chDot) :
    CompilePath (chAt :: t) =
      match getIndex t with
      | .error e => .err e
      | .ok idx => .ok [⟨unescape t, idx, GXJSliceContainer⟩] := by
  have hd : ∀ b ∈ chAt :: t, b ≠ chDot := by
    intro b hb
    rcases List.mem_cons.mp hb with h | h
    · rw [h]; decide
    · exact hdot b h
  rw [CompilePath_single (chAt :: t) (by simp) (cutAt_none_of_no_dot _ _ hd),
    compileSegment_at]
  cases getIndex t <;> rfl

/-- C7 (counterexample): `@+5` compiles (to index 5) although `+5` is not an optional
`-` followed by digits, and `@9223372036854775808` fails with ErrInvalidIndex although
its text is made of decimal digits only. -/
theorem CompilePath_at_plus_sign_ok :
    CompilePath [64, 43, 53] = .ok [⟨[43, 53], 5, GXJSliceContainer⟩] ∧
      CompilePath [64, 57, 50, 50, 51, 51, 55, 50, 48, 51, 54, 56, 53, 52, 55, 55, 53, 56,
        48, 56] = .err .ErrInvalidIndex :=
  ⟨by decide, by decide⟩

/-- C7 (amended): for every text `t` without a `.` byte, CompilePath of `@` followed by
`t` succeeds if and only if `t` is `first`, `last`, or an optional sign `+` or `-`
followed by one or more decimal digits whose value fits a 64-bit int; for every other
such `t` it fails with ErrInvalidIndex. -/
theorem CompilePath_at_index (t : GoString) (hdot : ∀ b ∈ t, b ≠ chDot) :
    ((∃ c, CompilePath (chAt :: t) = .ok c) ↔
        (t = strFirst ∨ t = strLast ∨ IsIntLiteral t)) ∧
      (¬ (t = strFirst ∨ t = strLast ∨ IsIntLiteral t) →
        CompilePath (chAt :: t) = .err .ErrInvalidIndex) := by
  rw [CompilePath_at t hdot]
  constructor
  · rw [← getIndex_ok_iff]
    cases getIndex t with
    | error e =>
      constructor
      · rintro ⟨c, hc⟩
        cases hc
      · rintro ⟨i, hi⟩
        cases hi
    | ok i => exact ⟨fun _ => ⟨i, rfl⟩, fun _ => ⟨_, rfl⟩⟩
  · intro h
    rw [getIndex_err t h]

/-- Witness of C7 (amended): `@art` has no `.` byte and fails with ErrInvalidIndex,
the text `art` being neither `first`, `last` nor an integer literal. -/
theorem CompilePath_at_index_witness :
    CompilePath (chAt :: [97, 114, 116]) = .err .ErrInvalidIndex :=
  (CompilePath_at_index [97, 114, 116] (by decide)).2 (by
    rintro (h | h | h)
    · exact absurd h (by decide)
    · exact absurd h (by decide)
    · have := (getIndex_ok_iff [97, 114, 116]).mpr (Or.inr (Or.inr h))
      obtain ⟨i, hi⟩ := this
      have hg : getIndex [97, 114, 116] = .error .ErrInvalidIndex := by decide
      rw [hg] at hi
      cases hi)

/-! ## Decimal renderings -/

theorem unescapeLoop_of_no_backslash (s buf : GoString) (h : ∀ b ∈ s, b ≠ chBackslash) :
    unescapeLoop s false buf = buf ++ s := by
  induction s generalizing buf with
  | nil => simp [unescapeLoop]
  | cons c rest ih =>
    have hc := h c (List.mem_cons_self _ _)
    simp only [unescapeLoop, Bool.false_eq_true, if_false, hc,
      ih _ (fun b hb => h b (List.mem_cons_of_mem _ hb))]
    simp

theorem unescape_of_no_backslash (s : GoString) (h : ∀ b ∈ s, b ≠ chBackslash) :
    unescape s = s := by
  simp [unescape, unescapeLoop_of_no_backslash s [] h]

theorem decValue_of_digits (ds : List Nat) :
    decValue ((ds.reverse).map (fun d => d + chZero)) = Nat.ofDigits 10 ds := by
  induction ds with
  | nil => rfl
  | cons d ds ih =>
    unfold decValue at ih ⊢
    simp only [List.reverse_cons, List.map_append, List.map_cons, List.map_nil,
      List.foldl_append, List.foldl_cons, List.foldl_nil, ih, Nat.ofDigits_cons, Nat.cast_id]
    simp only [chZero]
    omega

theorem decNat_ne_nil (n : Nat) : decNat n ≠ [] := by
  unfold decNat
  split
  · simp
  · next h =>
    intro h0
    have := List.map_eq_nil_iff.mp h0
    have h1 := List.reverse_eq_nil_iff.mp this
    exact (Nat.digits_ne_nil_iff_ne_zero.mpr h) h1

theorem decNat_digits (n : Nat) : ∀ b ∈ decNat n, chZero ≤ b ∧ b ≤ chNine := by
  unfold decNat
  split
  · intro b hb
    simp only [List.mem_singleton] at hb
    subst hb
    decide
  · intro b hb
    obtain ⟨d, hd, rfl⟩ := List.mem_map.mp hb
    have hlt : d < 10 := Nat.digits_lt_base (by decide) (List.mem_reverse.mp hd)
    simp only [chZero, chNine]
    omega

theorem decValue_decNat (n : Nat) : decValue (decNat n) = n := by
  unfold decNat
  split
  · next h => subst h; rfl
  · rw [decValue_of_digits, Nat.ofDigits_digits]

theorem dec_bytes (n : Int) : ∀ b ∈ dec n, b = chMinus ∨ (chZero ≤ b ∧ b ≤ chNine) := by
  intro b hb
  unfold dec at hb
  split at hb
  · rcases List.mem_cons.mp hb with h | h
    · exact Or.inl h
    · exact Or.inr (decNat_digits _ b h)
  · exact Or.inr (decNat_digits _ b hb)

theorem Atoi_dec (n : Int) (hlo : -(2 : Int) ^ 63 ≤ n) (hhi : n < (2 : Int) ^ 63) :
    Atoi (dec n) = some n := by
  unfold dec
  by_cases hn : n < 0
  · simp only [hn, if_true]
    have h := Atoi_sign_digits [chMinus] (decNat n.natAbs) (Or.inr (Or.inr rfl))
      (decNat_ne_nil _) (decNat_digits _)
    simp only [List.singleton_append, if_true, decValue_decNat] at h
    rw [h]
    have h1 : n.natAbs ≤ 2 ^ 63 := by omega
    simp only [h1, if_true, Option.some.injEq]
    omega
  · simp only [hn, if_false]
    have h := Atoi_sign_digits [] (decNat n.natAbs) (Or.inl rfl)
      (decNat_ne_nil _) (decNat_digits _)
    have h3 : ¬ (([] : GoString) = [chMinus]) := by simp
    simp only [List.nil_append, h3, if_false, decValue_decNat] at h
    rw [h]
    have h1 : n.natAbs < 2 ^ 63 := by omega
    simp only [h1, if_true, Option.some.injEq]
    omega

theorem dec_ne_nil (n : Int) : dec n ≠ [] := by
  unfold dec
  split
  · simp
  · exact decNat_ne_nil _

theorem getIndex_dec (n : Int) (hlo : -(2 : Int) ^ 63 ≤ n) (hhi : n < (2 : Int) ^ 63) :
    getIndex (dec n) = .ok n := by
  have hb := dec_bytes n
  have h1 : dec n ≠ strFirst := by
    intro h
    have := hb 102 (by rw [h]; decide)
    simp only [chMinus, chZero, chNine] at this
    omega
  have h2 : dec n ≠ strLast := by
    intro h
    have := hb 108 (by rw [h]; decide)
    simp only [chMinus, chZero, chNine] at this
    omega
  simp only [getIndex, length_ne_zero_of_ne_nil _ (dec_ne_nil n), if_false, h1, h2,
    Atoi_dec n hlo hhi]

/-- C6: for every integer `n` that fits a 64-bit int, `@` followed by the base-10
rendering of `n` compiles to exactly one Slice segment with index `n` and that
rendering as key; `@first` gives index 0 with key `first`, `@last` gives index -1 with
key `last`. -/
theorem CompilePath_at_dec (n : Int) (hlo : -(2 : Int) ^ 63 ≤ n) (hhi : n < (2 : Int) ^ 63) :
    CompilePath (chAt :: dec n) = .ok [⟨dec n, n, GXJSliceContainer⟩] ∧
      CompilePath (chAt :: strFirst) = .ok [⟨strFirst, 0, GXJSliceContainer⟩] ∧
      CompilePath (chAt :: strLast) = .ok [⟨strLast, -1, GXJSliceContainer⟩] := by
  refine ⟨?_, by decide, by decide⟩
  have hb := dec_bytes n
  have hdot : ∀ b ∈ dec n, b ≠ chDot := by
    intro b h
    have := hb b h
    simp only [chMinus, chZero, chNine, chDot] at this ⊢
    omega
  have hbs : ∀ b ∈ dec n, b ≠ chBackslash := by
    intro b h
    have := hb b h
    simp only [chMinus, chZero, chNine, chBackslash] at this ⊢
    omega
  rw [CompilePath_at (dec n) hdot, getIndex_dec n hlo hhi, unescape_of_no_backslash _ hbs]

/-- Witness of C6: `@-100` compiles to one Slice segment with index -100 and key
`-100`. -/
theorem CompilePath_at_dec_witness :
    CompilePath (chAt :: dec (-100)) = .ok [⟨dec (-100), -100, GXJSliceContainer⟩] ∧
      dec (-100) = [45, 49, 48, 48] :=
  ⟨(CompilePath_at_dec (-100) (by norm_num) (by norm_num)).1, by
    simp [dec, decNat, chZero, chMinus]⟩

/-! ## The compile cache -/

theorem reachable_sound (c : Cache) (h : Reachable c) :
    ∀ p cp, c p = some cp → CompilePath p = .ok cp := by
  induction h with
  | empty =>
    intro p cp hp
    cases hp
  | step c path data _ ih =>
    intro p cp hp
    unfold CachedLookup at hp
    cases hc : c path with
    | some compiled =>
      rw [hc] at hp
      exact ih p cp hp
    | none =>
      rw [hc] at hp
      cases hcp : CompilePath path with
      | ok cc =>
        rw [hcp] at hp
        simp only [cacheStore] at hp
        by_cases hq : p = path
        · simp only [hq, if_true, Option.some.injEq] at hp
          rw [hq, hcp, hp]
        · simp only [hq, if_false] at hp
          exact ih p cp hp
      | err e => rw [hcp] at hp; exact ih p cp hp
      | panic q => rw [hcp] at hp; exact ih p cp hp
      | outOfFuel => rw [hcp] at hp; exact ih p cp hp

/-- C8: in every cache state reachable from the empty cache by CachedLookup calls,
CachedLookup of a path and a data value has the same outcome as LookupRawPath of them,
whether the path is already cached or not. -/
theorem CachedLookup_eq_LookupRawPath (c : Cache) (h : Reachable c) (path : GoString)
    (data : Value) : (CachedLookup c path data).1 = LookupRawPath path data := by
  unfold CachedLookup LookupRawPath
  cases hc : c path with
  | some compiled =>
    rw [reachable_sound c h path compiled hc]
  | none =>
    cases CompilePath path <;> rfl

/-- Witness of C8: after a first CachedLookup of the path `k`, a second one (a cache
hit) agrees with LookupRawPath. -/
theorem CachedLookup_eq_LookupRawPath_witness :
    (CachedLookup (CachedLookup emptyCache [107] (.scalar 0)).2 [107]
        (.map [([107], .scalar 1)])).1 =
      LookupRawPath [107] (.map [([107], .scalar 1)]) :=
  CachedLookup_eq_LookupRawPath _ (Reachable.step _ _ _ Reachable.empty) _ _

/-- C11: in every cache state reachable from the empty cache by CachedLookup calls, a
CachedLookup of the path `p` that returns successfully leaves the cache with an entry
for `p`, and that entry is the compiled path CompilePath returns for `p`. -/
theorem CachedLookup_caches_compiled (c : Cache) (h : Reachable c) (path : GoString)
    (data v : Value) (hok : (CachedLookup c path data).1 = .ok v) :
    ∃ cp, (CachedLookup c path data).2 path = some cp ∧ CompilePath path = .ok cp := by
  unfold CachedLookup at hok ⊢
  cases hc : c path with
  | some compiled =>
    exact ⟨compiled, by simp only [hc], reachable_sound c h path compiled hc⟩
  | none =>
    rw [hc] at hok
    cases hcp : CompilePath path with
    | ok cc => exact ⟨cc, by simp [cacheStore], rfl⟩
    | err e => rw [hcp] at hok; cases hok
    | panic q => rw [hcp] at hok; cases hok
    | outOfFuel => rw [hcp] at hok; cases hok

/-- Witness of C11: the first CachedLookup of the path `k` on a mapping with key `k`
succeeds and leaves the compiled path of `k` in the cache. -/
theorem CachedLookup_caches_compiled_witness :
    ∃ cp, (CachedLookup emptyCache [107] (.map [([107], .scalar 1)])).2 [107] = some cp ∧
      CompilePath [107] = .ok cp :=
  CachedLookup_caches_compiled emptyCache Reachable.empty [107]
    (.map [([107], .scalar 1)]) (.scalar 1) rfl

/-- C12: for every cache state, every path `p` that is not in the cache and for which
CompilePath fails with the error `e`, and every data value, CachedLookup fails with `e`
and leaves the cache exactly as it was. -/
theorem CachedLookup_compile_error (c : Cache) (path : GoString) (data : Value)
    (e : GoError) (hmiss : c path = none) (herr : CompilePath path = .err e) :
    CachedLookup c path data = (.err e, c) := by
  unfold CachedLookup
  rw [hmiss, herr]

/-- Witness of C12: on the empty cache the path `k1.` fails with ErrWrongPath and the
cache stays empty. -/
theorem CachedLookup_compile_error_witness :
    CachedLookup emptyCache [107, 49, 46] (.scalar 0) = (.err .ErrWrongPath, emptyCache) :=
  CachedLookup_compile_error emptyCache [107, 49, 46] (.scalar 0) .ErrWrongPath rfl
    (by decide)

/-! ## Claims about single segments and about composition -/

/-- C13: for a non-empty raw segment, a leading `@` makes compileSegment fail with
ErrInvalidIndex or return a Slice segment, never a Map segment; any other leading byte
makes it succeed with a Map segment whose key is the unescaped segment and whose index
is 0. -/
theorem compileSegment_sigil (b : Nat) (rest : GoString) :
    (b = chAt →
        compileSegment (b :: rest) = .error .ErrInvalidIndex ∨
          ∃ item, compileSegment (b :: rest) = .ok item ∧
            item.containerType = GXJSliceContainer ∧
            item.containerType ≠ GXJMapContainer) ∧
      (b ≠ chAt →
        compileSegment (b :: rest) = .ok ⟨unescape (b :: rest), 0, GXJMapContainer⟩) := by
  constructor
  · intro hb
    subst hb
    rw [compileSegment_at]
    cases hg : getIndex rest with
    | error e =>
      left
      rw [getIndex_error rest e hg]
    | ok i =>
      right
      have hne : GXJSliceContainer ≠ GXJMapContainer := by decide
      exact ⟨_, rfl, rfl, hne⟩
  · intro hb
    simp only [compileSegment, hb, if_false]

/-- Witness of C13: `@1` compiles to a Slice segment and `k` to a Map segment. -/
theorem compileSegment_sigil_witness :
    (compileSegment (chAt :: [49]) = .error .ErrInvalidIndex ∨
        ∃ item, compileSegment (chAt :: [49]) = .ok item ∧
          item.containerType = GXJSliceContainer ∧
          item.containerType ≠ GXJMapContainer) ∧
      compileSegment (107 :: []) = .ok ⟨unescape (107 :: []), 0, GXJMapContainer⟩ :=
  ⟨(compileSegment_sigil chAt [49]).1 rfl, (compileSegment_sigil 107 []).2 (by decide)⟩

/-- C15: looking up the concatenation of two compiled paths is looking up the first
and, when that succeeds with `v`, looking up the second in `v`; when the first lookup
does not succeed its outcome is the outcome of the whole and no later segment is
applied. -/
theorem LookupCompiledPath_append (p q : GXJPath) (d : Value) :
    LookupCompiledPath (p ++ q) d =
      match LookupCompiledPath p d with
      | .ok v => LookupCompiledPath q v
      | r => r := by
  induction p generalizing d with
  | nil => rfl
  | cons x p ih =>
    simp only [List.cons_append, LookupCompiledPath]
    cases lookupSegment x d with
    | ok v => exact ih v
    | err e => rfl
    | panic q => rfl
    | outOfFuel => rfl

/-! ## Compilation of a concatenation -/

theorem normAfter_append (s t : GoString) (n : Bool) :
    normAfter (s ++ t) n = normAfter t (normAfter s n) := by
  induction s generalizing n with
  | nil => rfl
  | cons c s ih =>
    show normAfter (c :: (s ++ t)) n = _
    simp only [normAfter]
    exact ih _

theorem trailingBackslashes_snoc (s : GoString) (c : Nat) :
    trailingBackslashes (s ++ [c]) =
      if c = chBackslash then trailingBackslashes s + 1 else 0 := by
  unfold trailingBackslashes
  by_cases hc : c = chBackslash
  · simp [List.takeWhile, hc]
  · simp [List.takeWhile, hc]

theorem normAfter_eq_true_iff (s : GoString) :
    normAfter s true = true ↔ Even (trailingBackslashes s) := by
  induction s using List.reverseRecOn with
  | nil => simp [normAfter, trailingBackslashes]
  | append_singleton s c ih =>
    rw [normAfter_append, trailingBackslashes_snoc]
    by_cases hc : c = chBackslash
    · subst hc
      simp only [normAfter, if_true, Nat.even_add_one, ← ih]
      cases normAfter s true <;> simp [nextNorm]
    · simp only [normAfter, hc, if_false, even_zero, iff_true]
      cases normAfter s true <;> simp [nextNorm, hc]

theorem compileSegments_append (l1 l2 : List GoString) :
    compileSegments (l1 ++ l2) =
      match compileSegments l1 with
      | .ok c1 =>
        (match compileSegments l2 with
          | .ok c2 => .ok (c1 ++ c2)
          | r => r)
      | r => r := by
  induction l1 with
  | nil =>
    simp only [List.nil_append, compileSegments]
    cases compileSegments l2 <;> simp
  | cons s ss ih =>
    show compileSegments (s :: (ss ++ l2)) = _
    simp only [compileSegments]
    cases compileSegment s with
    | error e => rfl
    | ok c =>
      simp only []
      rw [ih]
      cases compileSegments ss with
      | ok cs => cases compileSegments l2 <;> simp
      | err e => rfl
      | panic q => rfl
      | outOfFuel => rfl

theorem CompilePath_concat (p1 p2 : GoString) (hne : p1 ≠ [])
    (hesc : Even (trailingBackslashes p1)) :
    CompilePath (p1 ++ chDot :: p2) =
      match CompilePath p1 with
      | .ok c1 =>
        (match compileSegments (specSegments p2) with
          | .ok c2 => .ok (c1 ++ c2)
          | r => r)
      | r => r := by
  have hn := (normAfter_eq_true_iff p1).mpr hesc
  rw [CompilePath_eq _ (by simp), CompilePath_eq p1 hne, specSegments,
    specSegmentsFrom_append p1 p2 true hn, compileSegments_append]
  rfl

/-- C14: for a non-empty path `p1` whose trailing backslashes are even in number (it
does not end in an unescaped backslash) and on which CompilePath fails with the error
`e`, CompilePath of `p1`, a separator and any `p2` fails with `e` as well. -/
theorem CompilePath_first_error (p1 p2 : GoString) (e : GoError) (hne : p1 ≠ [])
    (hesc : Even (trailingBackslashes p1)) (herr : CompilePath p1 = .err e) :
    CompilePath (p1 ++ chDot :: p2) = .err e := by
  rw [CompilePath_concat p1 p2 hne hesc, herr]

/-- Witness of C14: `@art` fails with ErrInvalidIndex, and so does `@art.k`. -/
theorem CompilePath_first_error_witness :
    CompilePath ([64, 97, 114, 116] ++ chDot :: [107]) = .err .ErrInvalidIndex :=
  CompilePath_first_error [64, 97, 114, 116] [107] .ErrInvalidIndex (by decide)
    (by decide) (by decide)

/-- C16: for non-empty paths `p1` and `p2` that compile to `c1` and `c2`, `p1` having
an even number of trailing backslashes, the path `p1`, a separator, `p2` compiles to
`c1` followed by `c2`. -/
theorem CompilePath_append (p1 p2 : GoString) (c1 c2 : GXJPath) (h1 : p1 ≠ [])
    (h2 : p2 ≠ []) (hesc : Even (trailingBackslashes p1)) (hc1 : CompilePath p1 = .ok c1)
    (hc2 : CompilePath p2 = .ok c2) :
    CompilePath (p1 ++ chDot :: p2) = .ok (c1 ++ c2) := by
  rw [CompilePath_concat p1 p2 h1 hesc, hc1, ← CompilePath_eq p2 h2, hc2]

/-- Witness of C16: `k1` and `@last` compile to one segment each, and `k1.@last` to
the two segments in that order. -/
theorem CompilePath_append_witness :
    CompilePath ([107, 49] ++ chDot :: [64, 108, 97, 115, 116]) =
      .ok ([⟨[107, 49], 0, GXJMapContainer⟩] ++ [⟨strLast, -1, GXJSliceContainer⟩]) :=
  CompilePath_append [107, 49] [64, 108, 97, 115, 116] _ _ (by decide) (by decide)
    (by decide) (by decide) (by decide)

/-! ## The segment cutter and the first unescaped separator -/

theorem isUnescapedDotFrom_zero (n : Bool) (c : Nat) (rest : GoString) :
    IsUnescapedDotFrom n (c :: rest) 0 ↔ (n = true ∧ c = chDot) := by
  simp only [IsUnescapedDotFrom, List.get?_cons_zero, Option.some.injEq, List.take_zero,
    normAfter]
  exact And.comm

theorem isUnescapedDotFrom_succ (n : Bool) (c : Nat) (rest : GoString) (i : Nat) :
    IsUnescapedDotFrom n (c :: rest) (i + 1) ↔ IsUnescapedDotFrom (nextNorm n c) rest i := by
  simp only [IsUnescapedDotFrom, List.get?_cons_succ, List.take_succ_cons, normAfter]

theorem cutAt_none_iff (s : GoString) (n : Bool) :
    cutAt s n = none ↔ ∀ i, ¬ IsUnescapedDotFrom n s i := by
  induction s generalizing n with
  | nil =>
    simp only [cutAt, true_iff]
    intro i h
    simp [IsUnescapedDotFrom] at h
  | cons c rest ih =>
    by_cases hd : n = true ∧ c = chDot
    · have hc : cutAt (c :: rest) n = some ([], rest) := by
        simp only [cutAt, hd, and_self, if_true]
      rw [hc]
      constructor
      · intro h
        cases h
      · intro h
        exact absurd ((isUnescapedDotFrom_zero n c rest).mpr hd) (h 0)
    · simp only [cutAt, hd, if_false, Option.map_eq_none', ih]
      constructor
      · intro h i
        cases i with
        | zero => rw [isUnescapedDotFrom_zero]; exact hd
        | succ j => rw [isUnescapedDotFrom_succ]; exact h j
      · intro h i
        rw [← isUnescapedDotFrom_succ]
        exact h (i + 1)

theorem get?_append_length (a b : GoString) (d : Nat) :
    (a ++ d :: b).get? a.length = some d := by
  induction a with
  | nil => rfl
  | cons c a ih => simpa using ih

theorem get?_append_lt (a t : GoString) (j : Nat) (h : j < a.length) :
    (a ++ t).get? j = a.get? j := by
  induction a generalizing j with
  | nil => cases h
  | cons c a ih =>
    cases j with
    | zero => rfl
    | succ k =>
      simp only [List.cons_append, List.get?_cons_succ]
      exact ih k (Nat.lt_of_succ_lt_succ h)

theorem cutAt_some_first (s : GoString) (n : Bool) (a b : GoString)
    (h : cutAt s n = some (a, b)) :
    IsUnescapedDotFrom n s a.length ∧ ∀ j, j < a.length → ¬ IsUnescapedDotFrom n s j := by
  obtain ⟨e1, e2, e3⟩ := cutAt_some s n a b h
  subst e1
  constructor
  · constructor
    · exact get?_append_length a b chDot
    · simpa using e3
  · intro j hj hdot
    apply (cutAt_none_iff a n).mp e2 j
    obtain ⟨h1, h2⟩ := hdot
    constructor
    · rw [get?_append_lt a _ j hj] at h1
      exact h1
    · rw [List.take_append_of_le_length (Nat.le_of_lt hj)] at h2
      exact h2

/-- C17: when the path has an unescaped separator and `i` is the position of the first
one, cutSegment returns the bytes before `i` and the bytes after `i`, or the single
byte `.` when nothing follows; when the path has no unescaped separator, cutSegment
returns the whole path and the empty remainder; the segment it returns never contains
an unescaped separator. -/
theorem cutSegment_spec (path : GoString) :
    (∀ i, IsUnescapedDot path i → (∀ j, j < i → ¬ IsUnescapedDot path j) →
        cutSegment path =
          (path.take i, if path.drop (i + 1) = [] then [chDot] else path.drop (i + 1))) ∧
      ((∀ i, ¬ IsUnescapedDot path i) → cutSegment path = (path, [])) ∧
      (∀ i, ¬ IsUnescapedDot (cutSegment path).1 i) := by
  rw [cutSegment_eq]
  cases hcut : cutAt path true with
  | none =>
    have hno := (cutAt_none_iff path true).mp hcut
    exact ⟨fun i hi _ => absurd hi (hno i), fun _ => rfl, hno⟩
  | some st =>
    obtain ⟨a, b⟩ := st
    obtain ⟨hfirst, hmin⟩ := cutAt_some_first path true a b hcut
    obtain ⟨e1, e2, _⟩ := cutAt_some path true a b hcut
    refine ⟨?_, ?_, ?_⟩
    · intro i hi hlt
      have hia : i = a.length := by
        rcases Nat.lt_trichotomy i a.length with h | h | h
        · exact absurd hi (hmin i h)
        · exact h
        · exact absurd hfirst (hlt a.length h)
      subst hia
      subst e1
      simp
    · intro hno
      exact absurd hfirst (hno a.length)
    · exact (cutAt_none_iff a true).mp e2

/-- Witness of C17: in `a\.b.c` the first unescaped separator is at position 4, so the
segment is `a\.b` and the remainder is `c`. -/
theorem cutSegment_spec_witness :
    cutSegment [97, 92, 46, 98, 46, 99] =
      (([97, 92, 46, 98, 46, 99] : GoString).take 4,
        if ([97, 92, 46, 98, 46, 99] : GoString).drop (4 + 1) = [] then [chDot]
        else ([97, 92, 46, 98, 46, 99] : GoString).drop (4 + 1)) :=
  (cutSegment_spec [97, 92, 46, 98, 46, 99]).1 4 (by decide) (by decide)

/-! ## Unescaping -/

theorem unescapeLoop_buf (s : GoString) (e : Bool) (buf : GoString) :
    unescapeLoop s e buf = buf ++ unescapeLoop s e [] := by
  induction s generalizing e buf with
  | nil => simp [unescapeLoop]
  | cons c r ih =>
    cases e with
    | true =>
      simp only [unescapeLoop, if_true]
      rw [ih false (buf ++ [c]), ih false ([] ++ [c])]
      simp
    | false =>
      by_cases hc : c = chBackslash
      · simp only [unescapeLoop, Bool.false_eq_true, if_false, hc, if_true]
        exact ih true buf
      · simp only [unescapeLoop, Bool.false_eq_true, if_false, hc]
        rw [ih false (buf ++ [c]), ih false ([] ++ [c])]
        simp

theorem unescapeLoop_length_le (s : GoString) (e : Bool) :
    (unescapeLoop s e []).length ≤ s.length := by
  induction s generalizing e with
  | nil => simp [unescapeLoop]
  | cons c r ih =>
    cases e with
    | true =>
      simp only [unescapeLoop, if_true]
      rw [unescapeLoop_buf]
      have := ih false
      simp only [List.length_append, List.length_cons, List.length_nil, List.nil_append]
      omega
    | false =>
      by_cases hc : c = chBackslash
      · simp only [unescapeLoop, Bool.false_eq_true, if_false, hc, if_true]
        have := ih true
        simp only [List.length_cons]
        omega
      · simp only [unescapeLoop, Bool.false_eq_true, if_false, hc]
        rw [unescapeLoop_buf]
        have := ih false
        simp only [List.length_append, List.length_cons, List.length_nil, List.nil_append]
        omega

theorem unescapeLoop_eq_of_length_eq (s : GoString) (e : Bool)
    (h : (unescapeLoop s e []).length = s.length) : unescapeLoop s e [] = s := by
  induction s generalizing e with
  | nil => simp [unescapeLoop]
  | cons c r ih =>
    cases e with
    | true =>
      simp only [unescapeLoop, if_true] at h ⊢
      rw [unescapeLoop_buf] at h ⊢
      simp only [List.length_append, List.length_cons, List.length_nil,
        List.nil_append] at h
      rw [ih false (by omega)]
      rfl
    | false =>
      by_cases hc : c = chBackslash
      · simp only [unescapeLoop, Bool.false_eq_true, if_false, hc, if_true] at h
        have := unescapeLoop_length_le r true
        simp only [List.length_cons] at h
        omega
      · simp only [unescapeLoop, Bool.false_eq_true, if_false, hc] at h ⊢
        rw [unescapeLoop_buf] at h ⊢
        simp only [List.length_append, List.length_cons, List.length_nil,
          List.nil_append] at h
        rw [ih false (by omega)]
        rfl

theorem unescape_eq_loop (s : GoString) : unescape s = unescapeLoop s false [] := by
  unfold unescape
  simp only []
  split
  · next h => exact (unescapeLoop_eq_of_length_eq s false h.symm).symm
  · rfl

theorem unescapeLoop_append (s t : GoString) (e : Bool) (buf : GoString) :
    unescapeLoop (s ++ t) e buf =
      unescapeLoop t (!(normAfter s (!e))) (unescapeLoop s e buf) := by
  induction s generalizing e buf with
  | nil => simp [unescapeLoop, normAfter]
  | cons c r ih =>
    show unescapeLoop (c :: (r ++ t)) e buf = _
    cases e with
    | true =>
      have hn : nextNorm false c = true := by simp [nextNorm]
      simp only [unescapeLoop, if_true, normAfter, Bool.not_true, hn]
      rw [ih]
      simp
    | false =>
      by_cases hc : c = chBackslash
      · have hn : nextNorm true c = false := by simp [nextNorm, hc]
        simp only [unescapeLoop, Bool.false_eq_true, if_false, hc, if_true, normAfter,
          Bool.not_false]
        rw [← hc, hn, ih]
        simp
      · have hn : nextNorm true c = true := by simp [nextNorm, hc]
        simp only [unescapeLoop, Bool.false_eq_true, if_false, hc, normAfter,
          Bool.not_false, hn]
        rw [ih]
        simp

/-- C18: unescape satisfies the left-to-right equations: the empty string is
unchanged; a backslash followed by a byte `c` gives `c` and the unescaping of the
rest; a byte `c` other than a backslash gives `c` and the unescaping of the rest; so a
string without a backslash is returned unchanged. -/
theorem unescape_equations :
    unescape [] = [] ∧
      (∀ c r, unescape (chBackslash :: c :: r) = c :: unescape r) ∧
      (∀ c r, c ≠ chBackslash → unescape (c :: r) = c :: unescape r) ∧
      (∀ s, (∀ b ∈ s, b ≠ chBackslash) → unescape s = s) := by
  refine ⟨rfl, ?_, ?_, unescape_of_no_backslash⟩
  · intro c r
    rw [unescape_eq_loop, unescape_eq_loop]
    simp only [unescapeLoop, Bool.false_eq_true, if_false, if_true]
    rw [unescapeLoop_buf]
    rfl
  · intro c r hc
    rw [unescape_eq_loop, unescape_eq_loop]
    simp only [unescapeLoop, Bool.false_eq_true, if_false, hc]
    rw [unescapeLoop_buf]
    rfl

/-- Witness of C18: `k\.` starts with a byte that is not a backslash, and `k1` has no
backslash at all. -/
theorem unescape_equations_witness :
    unescape (107 :: [92, 46]) = 107 :: unescape [92, 46] ∧ unescape [107, 49] = [107, 49] :=
  ⟨unescape_equations.2.2.1 107 [92, 46] (by decide),
    unescape_equations.2.2.2 [107, 49] (by decide)⟩

/-- C20: for a string `s` with an even number of trailing backslashes (it does not end
in an unescaped backslash), unescaping `s` followed by one backslash gives the
unescaping of `s`; and the path made of a single backslash compiles, without error, to
exactly one Map segment with the empty key and index 0. -/
theorem unescape_dangling (s : GoString) (hesc : Even (trailingBackslashes s)) :
    unescape (s ++ [chBackslash]) = unescape s ∧
      CompilePath [chBackslash] = .ok [⟨[], 0, GXJMapContainer⟩] := by
  refine ⟨?_, by decide⟩
  have hn := (normAfter_eq_true_iff s).mpr hesc
  rw [unescape_eq_loop, unescape_eq_loop, unescapeLoop_append]
  simp only [Bool.not_false, hn, Bool.not_true, unescapeLoop, Bool.false_eq_true,
    if_false, if_true]

/-- Witness of C20: `k\\` ends in an escaped backslash, and one more backslash after it
is dropped. -/
theorem unescape_dangling_witness :
    unescape ([107, 92, 92] ++ [chBackslash]) = unescape [107, 92, 92] :=
  (unescape_dangling [107, 92, 92] (by decide)).1

/-! ## Termination of the compile loop -/

theorem compileSegments_ne_outOfFuel (segs : List GoString) :
    compileSegments segs ≠ .outOfFuel := by
  induction segs with
  | nil => simp [compileSegments]
  | cons s ss ih =>
    simp only [compileSegments]
    cases compileSegment s with
    | error e => simp
    | ok c =>
      cases hss : compileSegments ss with
      | ok cs => simp
      | err e => simp
      | panic q => simp
      | outOfFuel => exact absurd hss ih

theorem cutSegment_rest_length (path : GoString) (hseg : (cutSegment path).1 ≠ []) :
    (cutSegment path).2.length < path.length := by
  rw [cutSegment_eq] at hseg ⊢
  cases hcut : cutAt path true with
  | none =>
    rw [hcut] at hseg
    exact List.length_pos.mpr hseg
  | some st =>
    obtain ⟨a, b⟩ := st
    rw [hcut] at hseg
    obtain ⟨e1, _, _⟩ := cutAt_some path true a b hcut
    have ha : 0 < a.length := List.length_pos.mpr hseg
    subst e1
    by_cases hb : b.length = 0
    · simp only [hb, if_true, List.length_append, List.length_cons, List.length_nil]
      omega
    · simp only [hb, if_false, List.length_append, List.length_cons]
      omega

/-- C19: for a non-empty path, a non-empty segment cut by cutSegment leaves a remainder
(the `.` put for an empty one included) strictly shorter than the path, and an empty
segment makes the compile loop return ErrWrongPath in that iteration; so on every path
the loop of CompilePath ends within `len(path)` iterations, and more iterations change
nothing. -/
theorem CompilePath_terminates (path : GoString) :
    (path ≠ [] → (cutSegment path).1 ≠ [] → (cutSegment path).2.length < path.length) ∧
      (path ≠ [] → (cutSegment path).1 = [] →
        ∀ fuel out, CompilePathLoop (fuel + 1) path out = .err .ErrWrongPath) ∧
      CompilePath path ≠ .outOfFuel ∧
      (∀ fuel, path.length ≤ fuel → CompilePathLoop fuel path [] = CompilePath path) := by
  refine ⟨fun _ h => cutSegment_rest_length path h, ?_, ?_, ?_⟩
  · intro hne hseg fuel out
    rw [CompilePathLoop_succ fuel path out hne, hseg]
    rfl
  · by_cases hne : path = []
    · subst hne
      rw [CompilePath_nil]
      simp
    · rw [CompilePath_eq path hne]
      exact compileSegments_ne_outOfFuel _
  · intro fuel hfuel
    by_cases hne : path = []
    · subst hne
      rw [CompilePathLoop_nil, CompilePath_nil]
    · rw [CompilePath, CompilePathLoop_eq fuel path [] hne hfuel,
        CompilePathLoop_eq path.length path [] hne (Nat.le_refl _)]

/-- Witness of C19: on `k1.` the segment `k1` leaves the remainder `.`, shorter than the
path; on `.k` the segment is empty and the loop returns ErrWrongPath at once. -/
theorem CompilePath_terminates_witness :
    (cutSegment [107, 49, 46]).2.length < ([107, 49, 46] : GoString).length ∧
      CompilePathLoop (0 + 1) [46, 107] [] = .err .ErrWrongPath :=
  ⟨(CompilePath_terminates [107, 49, 46]).1 (by decide) (by decide),
    (CompilePath_terminates [46, 107]).2.1 (by decide) (by decide) 0 []⟩

end Gxjpath
